import Mathlib

/-!
Shallow embedding of the cmesh lifecycle and the ghost-layer
construction of the t8code repository (src/t8_cmesh/t8_cmesh.c and
src/t8_forest/t8_forest_ghost.cxx), together with theorems about the
embedded functions.

Modelling conventions.  The C integer types t8_topidx_t and
t8_gloidx_t are signed; they are modelled by Int (sentinel values such
as -1 occur in the reachable states).  T8_ASSERT contract checks are
modelled by Option (none = contract violation, a debug-mode abort);
SC_ABORT error exits are modelled by Except with a dedicated error
value.  All functions are executable.
-/

/-- Element classes (t8_eclass_t; declared in t8_eclass.h, which is not
among the two source files).  The sentinel value T8_ECLASS_LAST is
modelled by Option where a field can be unset. -/
inductive ECls where
  | vertex
  | line
  | quad
  | triangle
  | hex
  | tet
  | prism
  | pyramid
deriving DecidableEq

/-- Modelled from the spec: the per-eclass topological dimension table
t8_eclass_to_dimension (t8_eclass.c is not under src/; the spec fixes
"Each value has a fixed dimension (0..3)" and names the dimensions in
the glossary). -/
def t8_eclass_to_dimension : ECls → ℤ
  | .vertex => 0
  | .line => 1
  | .quad => 2
  | .triangle => 2
  | .hex => 3
  | .tet => 3
  | .prism => 3
  | .pyramid => 3

/-- Modelled from the spec: the per-eclass face count table
t8_eclass_num_faces (t8_eclass.c is not under src/; the spec fixes
"face count (0..6)"). -/
def t8_eclass_num_faces : ECls → ℕ
  | .vertex => 0
  | .line => 2
  | .quad => 4
  | .triangle => 3
  | .hex => 6
  | .tet => 4
  | .prism => 5
  | .pyramid => 5

/-- MPI communicator handles as the cmesh code observes them: the null
communicator, the world default, caller-supplied handles, and the
duplicate produced by sc_MPI_Comm_dup at commit. -/
inductive SCComm where
  | null
  | world
  | user (n : ℕ)
  | dupOf (c : SCComm)
deriving DecidableEq

/-- Face-neighbor slot of a coarse tree (t8_ctree_fneighbor_struct_t).
The eclass field uses the sentinel T8_ECLASS_LAST for "unset",
modelled as none. -/
structure CtreeFneighbor where
  treeid : ℤ
  ecl : Option ECls
  tree_to_face : ℤ
deriving DecidableEq

/-- Coarse tree record (t8_ctree_struct_t).  The ecl field models the
source field named eclass. -/
structure CTree where
  treeid : ℤ
  ecl : ECls
  face_neighbors : List CtreeFneighbor
deriving DecidableEq

/-- The cmesh record (t8_cmesh_struct_t).  The ctrees array is
allocated by set_num_trees with uninitialized entries; it is modelled
as none before allocation and as a list of Option CTree afterwards
(inner none = slot never written by set_tree).  The reference count
rc models the rc.refcount field. -/
structure t8_cmesh where
  committed : Bool
  dimension : ℤ
  do_dup : Bool
  set_partitioned : Bool
  mpicomm : SCComm
  mpirank : ℤ
  mpisize : ℤ
  rc : ℕ
  num_trees : ℤ
  num_local_trees : ℤ
  num_ghosts : ℤ
  num_trees_per_eclass : ECls → ℕ
  ctrees : Option (List (Option CTree))
  first_tree : ℤ
  tree_offsets : Option (List ℤ)

/-- Modelled from the spec: t8_refcount_init (t8_refcount.h is not
among the source files; the spec fixes "a refcount ≥ 1 from
construction"). -/
def t8_refcount_init : ℕ := 1

/-- Modelled from the spec: t8_refcount_ref increments the counter. -/
def t8_refcount_ref (rc : ℕ) : ℕ := rc + 1

/-- Modelled from the spec: t8_refcount_unref decrements the counter
and reports whether it reached zero.  The caller contract requires a
positive counter. -/
def t8_refcount_unref (rc : ℕ) : ℕ × Bool := (rc - 1, decide (rc - 1 = 0))

/-- The state produced by t8_cmesh_init (lines 74-88): zero-allocated
record, refcount 1, hard-error defaults dimension = -1, communicator =
world, rank = size = -1. -/
def t8_cmesh_init : t8_cmesh where
  committed := false
  dimension := -1
  do_dup := false
  set_partitioned := false
  mpicomm := SCComm.world
  mpirank := -1
  mpisize := -1
  rc := t8_refcount_init
  num_trees := 0
  num_local_trees := 0
  num_ghosts := 0
  num_trees_per_eclass := fun _ => 0
  ctrees := none
  first_tree := 0
  tree_offsets := none

/-- t8_cmesh_set_mpicomm (lines 90-102).  Contract: live, not
committed, communicator still the world default, argument not null. -/
def t8_cmesh_set_mpicomm (cmesh : t8_cmesh) (mpicomm : SCComm) (dup : Bool) :
    Option t8_cmesh :=
  if 0 < cmesh.rc ∧ cmesh.committed = false ∧ cmesh.mpicomm = SCComm.world ∧
      mpicomm ≠ SCComm.null then
    some { cmesh with mpicomm := mpicomm, do_dup := dup }
  else none

/-- t8_cmesh_get_mpicomm (lines 104-113).  Contract: live cmesh with a
non-null communicator; the commit state is not checked.  Returns the
communicator and the do_dup flag. -/
def t8_cmesh_get_mpicomm (cmesh : t8_cmesh) : Option (SCComm × Bool) :=
  if 0 < cmesh.rc ∧ cmesh.mpicomm ≠ SCComm.null then
    some (cmesh.mpicomm, cmesh.do_dup)
  else none

/-- t8_cmesh_set_num_trees (lines 142-169).  In partitioned mode sets
the local count (global count must already be positive, local count
still unset); in replicated mode sets both counts (must be positive,
not yet set).  Allocates the ctrees array with uninitialized slots. -/
def t8_cmesh_set_num_trees (cmesh : t8_cmesh) (num_trees : ℤ) :
    Option t8_cmesh :=
  if cmesh.committed then none
  else if cmesh.set_partitioned then
    if 0 < cmesh.num_trees ∧ cmesh.num_local_trees = 0 then
      some { cmesh with
        num_local_trees := num_trees,
        ctrees := some (List.replicate num_trees.toNat none) }
    else none
  else
    if 0 < num_trees ∧ cmesh.num_trees = 0 then
      some { cmesh with
        num_trees := num_trees,
        num_local_trees := num_trees,
        ctrees := some (List.replicate num_trees.toNat none) }
    else none

/-- t8_cmesh_set_partitioned (lines 115-140).  Contract: not committed
and no partition data or trees set yet.  With flag = false it stores
the flag and delegates to set_num_trees (replicated); otherwise it
records the global tree count, the first local tree and the ghost
count. -/
def t8_cmesh_set_partitioned (cmesh : t8_cmesh) (flag : Bool)
    (num_global_trees first_local_tree num_ghosts : ℤ) : Option t8_cmesh :=
  if cmesh.committed = false ∧ cmesh.set_partitioned = false ∧
      cmesh.num_trees = 0 ∧ cmesh.num_local_trees = 0 ∧ cmesh.first_tree = 0 then
    if flag = false then
      t8_cmesh_set_num_trees cmesh num_global_trees
    else
      some { cmesh with
        set_partitioned := true,
        num_trees := num_global_trees,
        first_tree := first_local_tree,
        num_ghosts := num_ghosts }
  else none

/-- t8_cmesh_tree_id_is_valid (lines 174-184), verbatim from the
source: under partitioning the comparison with first_tree is the
strict one the source uses. -/
def t8_cmesh_tree_id_is_valid (cmesh : t8_cmesh) (tree_id : ℤ) : Bool :=
  if cmesh.set_partitioned then
    decide (cmesh.first_tree < tree_id) &&
      decide (tree_id < cmesh.first_tree + cmesh.num_local_trees)
  else
    decide (0 ≤ tree_id) && decide (tree_id < cmesh.num_trees)

/-- Modelled from the spec: the valid local tree-id range of set_tree,
"replicated: [0, num_trees); partitioned: [first_tree, first_tree +
num_local_trees)".  Used to compare the source's validity check
against the specified range. -/
def spec_tree_id_in_local_range (cmesh : t8_cmesh) (tree_id : ℤ) : Bool :=
  if cmesh.set_partitioned then
    decide (cmesh.first_tree ≤ tree_id) &&
      decide (tree_id < cmesh.first_tree + cmesh.num_local_trees)
  else
    decide (0 ≤ tree_id) && decide (tree_id < cmesh.num_trees)

/-- t8_cmesh_tree_index (lines 189-193). -/
def t8_cmesh_tree_index (cmesh : t8_cmesh) (tree_id : ℤ) : ℤ :=
  if cmesh.set_partitioned then tree_id - cmesh.first_tree else tree_id

/-- t8_cmesh_set_tree (lines 195-232).  Contract: not committed, valid
tree id, and the tree dimension must match the cmesh dimension (which
is fixed by the first inserted tree).  Writes the tree record with
face-neighbor slots set to invalid sentinels and increments the
per-eclass count.  The binder tc models the parameter the source
names tree_class. -/
def t8_cmesh_set_tree (cmesh : t8_cmesh) (tree_id : ℤ) (tc : ECls) :
    Option t8_cmesh :=
  if cmesh.committed then none
  else if t8_cmesh_tree_id_is_valid cmesh tree_id = false then none
  else if cmesh.dimension ≠ -1 ∧ t8_eclass_to_dimension tc ≠ cmesh.dimension then
    none
  else
    match cmesh.ctrees with
    | none => none
    | some arr =>
      let idx := t8_cmesh_tree_index cmesh tree_id
      if 0 ≤ idx ∧ idx.toNat < arr.length then
        some { cmesh with
          dimension :=
            if cmesh.dimension = -1 then t8_eclass_to_dimension tc
            else cmesh.dimension,
          num_trees_per_eclass := fun e =>
            if e = tc then cmesh.num_trees_per_eclass e + 1
            else cmesh.num_trees_per_eclass e,
          ctrees := some (arr.set idx.toNat (some
            { treeid := tree_id, ecl := tc,
              face_neighbors := List.replicate (t8_eclass_num_faces tc)
                { treeid := -1, ecl := none, tree_to_face := -1 } })) }
      else none

/-- t8_cmesh_commit (lines 248-273).  Contract: non-null communicator,
not yet committed, positive global tree count.  Duplicates the
communicator when do_dup is set and records rank and size as queried
from the final communicator; the query results are external inputs
(sc_MPI_Comm_size / sc_MPI_Comm_rank) and are passed in. -/
def t8_cmesh_commit (cmesh : t8_cmesh) (comm_size comm_rank : ℤ) :
    Option t8_cmesh :=
  if cmesh.mpicomm ≠ SCComm.null ∧ cmesh.committed = false ∧
      0 < cmesh.num_trees then
    some { cmesh with
      committed := true,
      mpicomm := if cmesh.do_dup then SCComm.dupOf cmesh.mpicomm else cmesh.mpicomm,
      mpisize := comm_size,
      mpirank := comm_rank }
  else none

/-- t8_cmesh_get_num_trees (lines 275-282).  Contract: live and
committed. -/
def t8_cmesh_get_num_trees (cmesh : t8_cmesh) : Option ℤ :=
  if cmesh.committed then some cmesh.num_trees else none

/-- t8_cmesh_get_local_num_trees (lines 284-296).  Contract: live and
committed. -/
def t8_cmesh_get_local_num_trees (cmesh : t8_cmesh) : Option ℤ :=
  if cmesh.committed then
    some (if cmesh.set_partitioned then cmesh.num_local_trees else cmesh.num_trees)
  else none

/-- t8_cmesh_get_tree_ecl models the source function named
t8_cmesh_get_tree_class (lines 298-311).  Contract: committed and
valid tree id; reads the eclass of the stored tree record (none also
when the slot was never written, an uninitialized read in C). -/
def t8_cmesh_get_tree_ecl (cmesh : t8_cmesh) (tree_id : ℤ) : Option ECls :=
  if cmesh.committed ∧ t8_cmesh_tree_id_is_valid cmesh tree_id = true then
    match cmesh.ctrees with
    | none => none
    | some arr =>
      match arr.get? (t8_cmesh_tree_index cmesh tree_id).toNat with
      | none => none
      | some none => none
      | some (some t) => some t.ecl
  else none

/-- Abort reasons (SC_ABORT exits) observable from the embedded
functions; uniform_bounds aborts with "Partition does not support
pyramidal elements yet." -/
inductive T8Abort where
  | unsupportedPyramid
deriving DecidableEq

/-- Children per tree at a uniform refinement level: the source's
children_per_tree = one << cmesh->dimension * level (line 335), a
64-bit shift whose defined behavior requires 0 ≤ dimension * level. -/
def t8_cmesh_children_per_tree (cmesh : t8_cmesh) (level : ℕ) : ℤ :=
  2 ^ (cmesh.dimension.toNat * level)

/-- Global child count global_num_children = num_trees *
children_per_tree (line 336). -/
def t8_cmesh_global_num_children (cmesh : t8_cmesh) (level : ℕ) : ℤ :=
  cmesh.num_trees * t8_cmesh_children_per_tree cmesh level

/-- First global child of a rank (lines 338-350).  The source computes
the quotient with long-double arithmetic; its stated intent is "the
biggest int smaller than (total_num_children * p) / P", i.e. the exact
floor, which is how it is modelled (all reachable operands are
nonnegative, where Int division is that floor).  The floating-point
rounding of the source itself is outside this embedding. -/
def t8_cmesh_first_global_child (global_num_children mpirank mpisize : ℤ) : ℤ :=
  if mpirank = 0 then 0 else global_num_children * mpirank / mpisize

/-- Last global child of a rank (lines 351-358), modelled like
t8_cmesh_first_global_child. -/
def t8_cmesh_last_global_child (global_num_children mpirank mpisize : ℤ) : ℤ :=
  if mpirank ≠ mpisize - 1 then global_num_children * (mpirank + 1) / mpisize
  else global_num_children

/-- t8_cmesh_uniform_bounds (lines 313-384).  Returns
(first_local_tree, child_in_tree_begin, last_local_tree,
child_in_tree_end) for this rank, or aborts when the cmesh contains a
pyramid tree. -/
def t8_cmesh_uniform_bounds (cmesh : t8_cmesh) (level : ℕ) :
    Except T8Abort (ℤ × ℤ × ℤ × ℤ) :=
  if cmesh.num_trees_per_eclass ECls.pyramid = 0 then
    let children_per_tree := t8_cmesh_children_per_tree cmesh level
    let global_num_children := t8_cmesh_global_num_children cmesh level
    let first_global_child :=
      t8_cmesh_first_global_child global_num_children cmesh.mpirank cmesh.mpisize
    let last_global_child :=
      t8_cmesh_last_global_child global_num_children cmesh.mpirank cmesh.mpisize
    let first_local_tree := first_global_child / children_per_tree
    let child_in_tree_begin :=
      first_global_child - first_local_tree * children_per_tree
    let last_local_tree :=
      if first_global_child < last_global_child then
        (last_global_child - 1) / children_per_tree
      else first_local_tree
    let child_in_tree_end :=
      if 0 < last_local_tree then
        last_global_child - last_local_tree * children_per_tree
      else last_global_child
    Except.ok (first_local_tree, child_in_tree_begin, last_local_tree,
      child_in_tree_end)
  else
    Except.error T8Abort.unsupportedPyramid

deriving instance DecidableEq for Except

/-- A cmesh object is either live or torn down; teardown records
whether t8_cmesh_reset freed the communicator. -/
inductive CmeshState where
  | live (cmesh : t8_cmesh)
  | destroyed (comm_freed : Bool)

/-- t8_cmesh_reset (lines 386-419): frees the tree records and the
offsets unconditionally, and frees the communicator exactly when both
do_dup and committed hold (lines 399-402). -/
def t8_cmesh_reset (cmesh : t8_cmesh) : CmeshState :=
  CmeshState.destroyed (cmesh.do_dup && cmesh.committed)

/-- t8_cmesh_ref (lines 421-426). -/
def t8_cmesh_ref (cmesh : t8_cmesh) : t8_cmesh :=
  { cmesh with rc := t8_refcount_ref cmesh.rc }

/-- t8_cmesh_unref (lines 428-440): decrement, and reset exactly when
the count reaches zero. -/
def t8_cmesh_unref (cmesh : t8_cmesh) : CmeshState :=
  let r := t8_refcount_unref cmesh.rc
  if r.2 then t8_cmesh_reset { cmesh with rc := 0 }
  else CmeshState.live { cmesh with rc := r.1 }

/-- One ref or unref call on a cmesh object. -/
inductive RcOp where
  | ref
  | unref
deriving DecidableEq

/-- Execute one RcOp; calling either operation on a destroyed object
is a use-after-free contract violation (the functions dereference the
cmesh pointer). -/
def t8_cmesh_rc_step (s : CmeshState) (op : RcOp) : Option CmeshState :=
  match s, op with
  | CmeshState.live c, RcOp.ref => some (CmeshState.live (t8_cmesh_ref c))
  | CmeshState.live c, RcOp.unref => some (t8_cmesh_unref c)
  | CmeshState.destroyed _, _ => none

/-- Execute a sequence of ref/unref calls. -/
def t8_cmesh_run_rc_ops : CmeshState → List RcOp → Option CmeshState
  | s, [] => some s
  | s, op :: rest =>
    match t8_cmesh_rc_step s op with
    | none => none
    | some s2 => t8_cmesh_run_rc_ops s2 rest

/-- Number of ref operations in a call sequence. -/
def rcRefs (ops : List RcOp) : ℕ := ops.count RcOp.ref

/-- Number of unref operations in a call sequence. -/
def rcUnrefs (ops : List RcOp) : ℕ := ops.count RcOp.unref

/-- Concrete partitioned cmesh in the Configuring state: 10 global
trees, first_tree = 5, two local trees with allocated slots. -/
def cmeshPartitioned : t8_cmesh :=
  { t8_cmesh_init with
    set_partitioned := true
    num_trees := 10
    first_tree := 5
    num_local_trees := 2
    ctrees := some (List.replicate 2 none) }

/-- Claim C6 (failing input): for a partitioned cmesh the spec declares
the valid set_tree range to be [first_tree, first_tree +
num_local_trees), so tree_id = first_tree = 5 is inside the specified
range; but the source's t8_cmesh_tree_id_is_valid uses the strict
comparison first_tree < tree_id, so set_tree rejects the first local
tree as a contract violation, while accepting tree_id = 6. -/
theorem t8_cmesh_set_tree_rejects_first_local_tree :
    spec_tree_id_in_local_range cmeshPartitioned 5 = true ∧
    t8_cmesh_tree_id_is_valid cmeshPartitioned 5 = false ∧
    (t8_cmesh_set_tree cmeshPartitioned 5 ECls.quad).isNone = true ∧
    t8_cmesh_tree_id_is_valid cmeshPartitioned 6 = true ∧
    (t8_cmesh_set_tree cmeshPartitioned 6 ECls.quad).isSome = true := by
  decide

/-- Claim C7 (counterexample): immediately after t8_cmesh_init the
cmesh is not committed, yet t8_cmesh_get_mpicomm succeeds (it checks
only liveness and a non-null communicator), contradicting the claim
that every committed-phase query including get_mpicomm fails on a
non-committed cmesh. -/
theorem t8_cmesh_get_mpicomm_succeeds_uncommitted :
    t8_cmesh_init.committed = false ∧
    (t8_cmesh_get_mpicomm t8_cmesh_init).isSome = true := by
  decide

/-- Claim C7 (amended): on a cmesh that is not committed, num_trees,
num_local_trees and tree_class fail as contract violations; the
get_mpicomm query does not check the commit state and succeeds on any
live cmesh with a non-null communicator, returning the communicator
and the do_dup flag. -/
theorem t8_cmesh_committed_queries (cmesh : t8_cmesh)
    (h : cmesh.committed = false) :
    t8_cmesh_get_num_trees cmesh = none ∧
    t8_cmesh_get_local_num_trees cmesh = none ∧
    (∀ tree_id : ℤ, t8_cmesh_get_tree_ecl cmesh tree_id = none) ∧
    (0 < cmesh.rc → cmesh.mpicomm ≠ SCComm.null →
      t8_cmesh_get_mpicomm cmesh = some (cmesh.mpicomm, cmesh.do_dup)) := by
  refine ⟨?_, ?_, ?_, ?_⟩
  · simp [t8_cmesh_get_num_trees, h]
  · simp [t8_cmesh_get_local_num_trees, h]
  · intro tree_id
    simp [t8_cmesh_get_tree_ecl, h]
  · intro h1 h2
    simp [t8_cmesh_get_mpicomm, h1, h2]

/-- Witness for t8_cmesh_committed_queries at the freshly initialized
cmesh. -/
theorem t8_cmesh_committed_queries_witness :
    t8_cmesh_init.committed = false ∧
    (t8_cmesh_get_num_trees t8_cmesh_init = none ∧
     t8_cmesh_get_local_num_trees t8_cmesh_init = none ∧
     (∀ tree_id : ℤ, t8_cmesh_get_tree_ecl t8_cmesh_init tree_id = none) ∧
     (0 < t8_cmesh_init.rc → t8_cmesh_init.mpicomm ≠ SCComm.null →
       t8_cmesh_get_mpicomm t8_cmesh_init =
         some (t8_cmesh_init.mpicomm, t8_cmesh_init.do_dup))) :=
  ⟨rfl, t8_cmesh_committed_queries t8_cmesh_init rfl⟩

/-- Concrete committed cmesh of three triangles (dimension 2) as seen
by rank 2 of 4 ranks; this is scenario S4 of the spec. -/
def cmeshS4 : t8_cmesh :=
  { t8_cmesh_init with
    committed := true
    dimension := 2
    num_trees := 3
    num_local_trees := 3
    mpirank := 2
    mpisize := 4
    ctrees := some (List.replicate 3 none) }

/-- Claim C1: on a pyramid-free cmesh the four outputs of
uniform_bounds are derived from the per-rank child interval
[first_global_child, last_global_child) with children_per_tree
children per tree by the stated integer formulas, and an empty rank
(first = last) collapses to first_local_tree = last_local_tree and
child_in_tree_begin = child_in_tree_end. -/
theorem t8_cmesh_uniform_bounds_derivation (cmesh : t8_cmesh) (level : ℕ)
    (flt cb llt ce : ℤ)
    (hnt : 0 ≤ cmesh.num_trees)
    (hrank : 0 ≤ cmesh.mpirank) (hrs : cmesh.mpirank < cmesh.mpisize)
    (h : t8_cmesh_uniform_bounds cmesh level = Except.ok (flt, cb, llt, ce)) :
    flt = t8_cmesh_first_global_child (t8_cmesh_global_num_children cmesh level)
        cmesh.mpirank cmesh.mpisize / t8_cmesh_children_per_tree cmesh level ∧
    cb = t8_cmesh_first_global_child (t8_cmesh_global_num_children cmesh level)
        cmesh.mpirank cmesh.mpisize - flt * t8_cmesh_children_per_tree cmesh level ∧
    llt = (if t8_cmesh_first_global_child (t8_cmesh_global_num_children cmesh level)
          cmesh.mpirank cmesh.mpisize <
        t8_cmesh_last_global_child (t8_cmesh_global_num_children cmesh level)
          cmesh.mpirank cmesh.mpisize then
        (t8_cmesh_last_global_child (t8_cmesh_global_num_children cmesh level)
          cmesh.mpirank cmesh.mpisize - 1) / t8_cmesh_children_per_tree cmesh level
      else flt) ∧
    ce = (if 0 < llt then
        t8_cmesh_last_global_child (t8_cmesh_global_num_children cmesh level)
          cmesh.mpirank cmesh.mpisize - llt * t8_cmesh_children_per_tree cmesh level
      else t8_cmesh_last_global_child (t8_cmesh_global_num_children cmesh level)
          cmesh.mpirank cmesh.mpisize) ∧
    (t8_cmesh_first_global_child (t8_cmesh_global_num_children cmesh level)
        cmesh.mpirank cmesh.mpisize =
      t8_cmesh_last_global_child (t8_cmesh_global_num_children cmesh level)
        cmesh.mpirank cmesh.mpisize →
      flt = llt ∧ cb = ce) := by
  have hsize : (0 : ℤ) < cmesh.mpisize := lt_of_le_of_lt hrank hrs
  set C := t8_cmesh_children_per_tree cmesh level with hC
  set G := t8_cmesh_global_num_children cmesh level with hG
  set fc := t8_cmesh_first_global_child G cmesh.mpirank cmesh.mpisize with hfc
  set lc := t8_cmesh_last_global_child G cmesh.mpirank cmesh.mpisize with hlc
  have hCpos : (0 : ℤ) < C := by
    rw [hC]; exact pow_pos (by norm_num) _
  have hGnn : (0 : ℤ) ≤ G := by
    rw [hG, t8_cmesh_global_num_children]
    exact mul_nonneg hnt (le_of_lt (by rw [hC] at hCpos; exact hCpos))
  have hfcnn : (0 : ℤ) ≤ fc := by
    rw [hfc, t8_cmesh_first_global_child]
    split
    · exact le_refl 0
    · exact Int.ediv_nonneg (mul_nonneg hGnn hrank) (le_of_lt hsize)
  have hlcnn : (0 : ℤ) ≤ lc := by
    rw [hlc, t8_cmesh_last_global_child]
    split
    · exact Int.ediv_nonneg (mul_nonneg hGnn (by linarith)) (le_of_lt hsize)
    · exact hGnn
  by_cases hp : cmesh.num_trees_per_eclass ECls.pyramid = 0
  · unfold t8_cmesh_uniform_bounds at h
    rw [if_pos hp] at h
    simp only [← hC, ← hG, ← hfc, ← hlc, Except.ok.injEq, Prod.mk.injEq] at h
    obtain ⟨h1, h2, h3, h4⟩ := h
    subst h1
    subst h2
    subst h3
    subst h4
    refine ⟨rfl, rfl, rfl, rfl, ?_⟩
    intro heq
    rw [heq]
    constructor
    · rw [if_neg (lt_irrefl lc)]
    · rw [if_neg (lt_irrefl lc)]
      by_cases h0 : 0 < lc / C
      · rw [if_pos h0]
      · rw [if_neg h0]
        have : lc / C = 0 :=
          le_antisymm (not_lt.mp h0) (Int.ediv_nonneg hlcnn (le_of_lt hCpos))
        rw [this]
        ring
  · unfold t8_cmesh_uniform_bounds at h
    rw [if_neg hp] at h
    exact absurd h (by simp)

/-- Witness for t8_cmesh_uniform_bounds_derivation: scenario S4 at
level 2 (children_per_tree 16, interval [24, 36) for rank 2) yields
first_local_tree 1, child_in_tree_begin 8, last_local_tree 2,
child_in_tree_end 4. -/
theorem t8_cmesh_uniform_bounds_derivation_witness :
    (0 : ℤ) ≤ cmeshS4.num_trees ∧ (0 : ℤ) ≤ cmeshS4.mpirank ∧
    cmeshS4.mpirank < cmeshS4.mpisize ∧
    t8_cmesh_uniform_bounds cmeshS4 2 = Except.ok (1, 8, 2, 4) ∧
    ((1 : ℤ) = t8_cmesh_first_global_child
        (t8_cmesh_global_num_children cmeshS4 2) cmeshS4.mpirank cmeshS4.mpisize /
        t8_cmesh_children_per_tree cmeshS4 2 ∧
      (8 : ℤ) = t8_cmesh_first_global_child
        (t8_cmesh_global_num_children cmeshS4 2) cmeshS4.mpirank cmeshS4.mpisize -
        1 * t8_cmesh_children_per_tree cmeshS4 2 ∧
      (2 : ℤ) = (if t8_cmesh_first_global_child
            (t8_cmesh_global_num_children cmeshS4 2) cmeshS4.mpirank cmeshS4.mpisize <
          t8_cmesh_last_global_child
            (t8_cmesh_global_num_children cmeshS4 2) cmeshS4.mpirank cmeshS4.mpisize then
          (t8_cmesh_last_global_child
            (t8_cmesh_global_num_children cmeshS4 2) cmeshS4.mpirank cmeshS4.mpisize - 1) /
            t8_cmesh_children_per_tree cmeshS4 2
        else 1) ∧
      (4 : ℤ) = (if (0 : ℤ) < 2 then
          t8_cmesh_last_global_child
            (t8_cmesh_global_num_children cmeshS4 2) cmeshS4.mpirank cmeshS4.mpisize -
            2 * t8_cmesh_children_per_tree cmeshS4 2
        else t8_cmesh_last_global_child
          (t8_cmesh_global_num_children cmeshS4 2) cmeshS4.mpirank cmeshS4.mpisize) ∧
      (t8_cmesh_first_global_child
          (t8_cmesh_global_num_children cmeshS4 2) cmeshS4.mpirank cmeshS4.mpisize =
        t8_cmesh_last_global_child
          (t8_cmesh_global_num_children cmeshS4 2) cmeshS4.mpirank cmeshS4.mpisize →
        (1 : ℤ) = 2 ∧ (8 : ℤ) = 4)) :=
  ⟨by decide, by decide, by decide, by decide,
    t8_cmesh_uniform_bounds_derivation cmeshS4 2 1 8 2 4
      (by decide) (by decide) (by decide) (by decide)⟩

/-- Claim C2: the per-rank child intervals of uniform_bounds exactly
partition [0, num_trees * children_per_tree): rank 0 starts at 0, the
last rank ends at the global child count, every rank's interval is
monotone, and adjacent ranks adjoin exactly. -/
theorem t8_cmesh_uniform_bounds_partition (cmesh : t8_cmesh) (level : ℕ)
    (hnt : 0 ≤ cmesh.num_trees) (hsize : 0 < cmesh.mpisize) :
    t8_cmesh_first_global_child (t8_cmesh_global_num_children cmesh level) 0
        cmesh.mpisize = 0 ∧
    t8_cmesh_last_global_child (t8_cmesh_global_num_children cmesh level)
        (cmesh.mpisize - 1) cmesh.mpisize =
      t8_cmesh_global_num_children cmesh level ∧
    (∀ r : ℤ, 0 ≤ r → r < cmesh.mpisize →
      t8_cmesh_first_global_child (t8_cmesh_global_num_children cmesh level) r
          cmesh.mpisize ≤
        t8_cmesh_last_global_child (t8_cmesh_global_num_children cmesh level) r
          cmesh.mpisize) ∧
    (∀ r : ℤ, 0 ≤ r → r + 1 < cmesh.mpisize →
      t8_cmesh_last_global_child (t8_cmesh_global_num_children cmesh level) r
          cmesh.mpisize =
        t8_cmesh_first_global_child (t8_cmesh_global_num_children cmesh level)
          (r + 1) cmesh.mpisize) := by
  set G := t8_cmesh_global_num_children cmesh level with hG
  have hGnn : (0 : ℤ) ≤ G := by
    rw [hG, t8_cmesh_global_num_children, t8_cmesh_children_per_tree]
    exact mul_nonneg hnt (le_of_lt (pow_pos (by norm_num) _))
  refine ⟨?_, ?_, ?_, ?_⟩
  · rw [t8_cmesh_first_global_child, if_pos rfl]
  · rw [t8_cmesh_last_global_child, if_neg (by simp)]
  · intro r hr0 hrlt
    rw [t8_cmesh_first_global_child, t8_cmesh_last_global_child]
    by_cases h0 : r = 0
    · rw [if_pos h0]
      split
      · exact Int.ediv_nonneg (mul_nonneg hGnn (by linarith)) (le_of_lt hsize)
      · exact hGnn
    · rw [if_neg h0]
      by_cases hlast : r = cmesh.mpisize - 1
      · rw [if_neg (by simpa using hlast)]
        calc G * r / cmesh.mpisize
            ≤ G * cmesh.mpisize / cmesh.mpisize :=
              Int.ediv_le_ediv hsize
                (mul_le_mul_of_nonneg_left (le_of_lt hrlt) hGnn)
          _ = G := Int.mul_ediv_cancel G (ne_of_gt hsize)
      · rw [if_pos (by simpa using hlast)]
        exact Int.ediv_le_ediv hsize
          (mul_le_mul_of_nonneg_left (by linarith) hGnn)
  · intro r hr0 hrlt
    rw [t8_cmesh_first_global_child, t8_cmesh_last_global_child,
      if_pos (by intro he; omega), if_neg (by omega)]

/-- Witness for t8_cmesh_uniform_bounds_partition: scenario S4 (three
trees, dimension 2, level 2, four ranks; G = 48, intervals [0,12),
[12,24), [24,36), [36,48)). -/
theorem t8_cmesh_uniform_bounds_partition_witness :
    (0 : ℤ) ≤ cmeshS4.num_trees ∧ (0 : ℤ) < cmeshS4.mpisize ∧
    (t8_cmesh_first_global_child (t8_cmesh_global_num_children cmeshS4 2) 0
        cmeshS4.mpisize = 0 ∧
      t8_cmesh_last_global_child (t8_cmesh_global_num_children cmeshS4 2)
          (cmeshS4.mpisize - 1) cmeshS4.mpisize =
        t8_cmesh_global_num_children cmeshS4 2 ∧
      (∀ r : ℤ, 0 ≤ r → r < cmeshS4.mpisize →
        t8_cmesh_first_global_child (t8_cmesh_global_num_children cmeshS4 2) r
            cmeshS4.mpisize ≤
          t8_cmesh_last_global_child (t8_cmesh_global_num_children cmeshS4 2) r
            cmeshS4.mpisize) ∧
      (∀ r : ℤ, 0 ≤ r → r + 1 < cmeshS4.mpisize →
        t8_cmesh_last_global_child (t8_cmesh_global_num_children cmeshS4 2) r
            cmeshS4.mpisize =
          t8_cmesh_first_global_child (t8_cmesh_global_num_children cmeshS4 2)
            (r + 1) cmeshS4.mpisize)) :=
  ⟨by decide, by decide,
    t8_cmesh_uniform_bounds_partition cmeshS4 2 (by decide) (by decide)⟩

/-- Claim C8: t8_cmesh_uniform_bounds aborts with the distinct
unsupported-pyramid error exactly when the cmesh has at least one
pyramid tree, and returns normally exactly when it has none. -/
theorem t8_cmesh_uniform_bounds_pyramid_error (cmesh : t8_cmesh) (level : ℕ) :
    (t8_cmesh_uniform_bounds cmesh level =
        Except.error T8Abort.unsupportedPyramid ↔
      cmesh.num_trees_per_eclass ECls.pyramid ≠ 0) ∧
    ((∃ v, t8_cmesh_uniform_bounds cmesh level = Except.ok v) ↔
      cmesh.num_trees_per_eclass ECls.pyramid = 0) := by
  unfold t8_cmesh_uniform_bounds
  by_cases h : cmesh.num_trees_per_eclass ECls.pyramid = 0 <;> simp [h]

/-- A cmesh with its reference count replaced; the record updates
performed by ref and unref all have this shape. -/
def cmeshWithRc (cmesh : t8_cmesh) (v : ℕ) : t8_cmesh := { cmesh with rc := v }

/-- Counting refs when a ref call is prepended. -/
lemma rcRefs_cons_ref (l : List RcOp) : rcRefs (RcOp.ref :: l) = rcRefs l + 1 := by
  simp [rcRefs, List.count_cons]

/-- Counting refs when an unref call is prepended. -/
lemma rcRefs_cons_unref (l : List RcOp) : rcRefs (RcOp.unref :: l) = rcRefs l := by
  simp [rcRefs, List.count_cons]

/-- Counting unrefs when a ref call is prepended. -/
lemma rcUnrefs_cons_ref (l : List RcOp) : rcUnrefs (RcOp.ref :: l) = rcUnrefs l := by
  simp [rcUnrefs, List.count_cons]

/-- Counting unrefs when an unref call is prepended. -/
lemma rcUnrefs_cons_unref (l : List RcOp) :
    rcUnrefs (RcOp.unref :: l) = rcUnrefs l + 1 := by
  simp [rcUnrefs, List.count_cons]

/-- Core run lemma for ref/unref sequences: as long as the running
count stays positive at every proper prefix, execution succeeds; the
object is live with count initial + refs - unrefs when that count is
positive, and is torn down with the communicator freed iff do_dup and
committed when the count reaches zero at the end. -/
lemma t8_cmesh_run_rc_ops_spec (ops : List RcOp) (cmesh : t8_cmesh)
    (hlive : 0 < cmesh.rc)
    (hpre : ∀ n, n < ops.length →
      rcUnrefs (ops.take n) < cmesh.rc + rcRefs (ops.take n))
    (hfin : rcUnrefs ops ≤ cmesh.rc + rcRefs ops) :
    t8_cmesh_run_rc_ops (CmeshState.live cmesh) ops =
      some (if rcUnrefs ops < cmesh.rc + rcRefs ops
        then CmeshState.live (cmeshWithRc cmesh (cmesh.rc + rcRefs ops - rcUnrefs ops))
        else CmeshState.destroyed (cmesh.do_dup && cmesh.committed)) := by
  induction ops generalizing cmesh with
  | nil =>
    simp only [rcRefs, rcUnrefs, List.count_nil, Nat.add_zero, Nat.sub_zero,
      t8_cmesh_run_rc_ops]
    rw [if_pos hlive]
    rfl
  | cons op rest ih =>
    cases op with
    | ref =>
      have step : t8_cmesh_run_rc_ops (CmeshState.live cmesh) (RcOp.ref :: rest) =
          t8_cmesh_run_rc_ops (CmeshState.live (t8_cmesh_ref cmesh)) rest := by
        simp [t8_cmesh_run_rc_ops, t8_cmesh_rc_step]
      have hrc : (t8_cmesh_ref cmesh).rc = cmesh.rc + 1 := rfl
      have hpre2 : ∀ n, n < rest.length →
          rcUnrefs (rest.take n) < (t8_cmesh_ref cmesh).rc + rcRefs (rest.take n) := by
        intro n hn
        have h2 := hpre (n + 1) (by simpa using Nat.succ_lt_succ hn)
        rw [List.take_succ_cons, rcRefs_cons_ref, rcUnrefs_cons_ref] at h2
        rw [hrc]
        omega
      have hfin2 : rcUnrefs rest ≤ (t8_cmesh_ref cmesh).rc + rcRefs rest := by
        rw [rcRefs_cons_ref, rcUnrefs_cons_ref] at hfin
        rw [hrc]
        omega
      rw [step, ih (t8_cmesh_ref cmesh) (by rw [hrc]; omega) hpre2 hfin2]
      refine congrArg some (if_congr ?_ ?_ rfl)
      · rw [hrc, rcRefs_cons_ref, rcUnrefs_cons_ref]
        omega
      · show CmeshState.live (cmeshWithRc cmesh _) = CmeshState.live (cmeshWithRc cmesh _)
        rw [hrc, rcRefs_cons_ref, rcUnrefs_cons_ref,
          show cmesh.rc + 1 + rcRefs rest - rcUnrefs rest =
            cmesh.rc + (rcRefs rest + 1) - rcUnrefs rest by omega]
    | unref =>
      by_cases h1 : cmesh.rc = 1
      · have hzero : decide (cmesh.rc - 1 = 0) = true := by simp [h1]
        have step : t8_cmesh_run_rc_ops (CmeshState.live cmesh) (RcOp.unref :: rest) =
            t8_cmesh_run_rc_ops
              (CmeshState.destroyed (cmesh.do_dup && cmesh.committed)) rest := by
          simp only [t8_cmesh_run_rc_ops, t8_cmesh_rc_step, t8_cmesh_unref,
            t8_refcount_unref, hzero, if_true, t8_cmesh_reset]
        cases rest with
        | nil =>
          rw [step]
          have hno : ¬ (rcUnrefs [RcOp.unref] < cmesh.rc + rcRefs [RcOp.unref]) := by
            rw [h1]
            decide
          rw [if_neg hno]
          rfl
        | cons op2 rest2 =>
          exfalso
          have h2 := hpre 1 (by simp)
          rw [show ((RcOp.unref :: op2 :: rest2).take 1) = [RcOp.unref] from rfl,
            h1] at h2
          exact absurd h2 (by decide)
      · have hge : 2 ≤ cmesh.rc := by omega
        have hnz : decide (cmesh.rc - 1 = 0) = false := by
          simp only [decide_eq_false_iff_not]
          omega
        have step : t8_cmesh_run_rc_ops (CmeshState.live cmesh) (RcOp.unref :: rest) =
            t8_cmesh_run_rc_ops
              (CmeshState.live (cmeshWithRc cmesh (cmesh.rc - 1))) rest := by
          simp only [t8_cmesh_run_rc_ops, t8_cmesh_rc_step, t8_cmesh_unref,
            t8_refcount_unref, hnz, Bool.false_eq_true, if_false]
          rfl
        have hrc : (cmeshWithRc cmesh (cmesh.rc - 1)).rc = cmesh.rc - 1 := rfl
        have hpre2 : ∀ n, n < rest.length →
            rcUnrefs (rest.take n) <
              (cmeshWithRc cmesh (cmesh.rc - 1)).rc + rcRefs (rest.take n) := by
          intro n hn
          have h2 := hpre (n + 1) (by simpa using Nat.succ_lt_succ hn)
          rw [List.take_succ_cons, rcRefs_cons_unref, rcUnrefs_cons_unref] at h2
          rw [hrc]
          omega
        have hfin2 : rcUnrefs rest ≤
            (cmeshWithRc cmesh (cmesh.rc - 1)).rc + rcRefs rest := by
          rw [rcRefs_cons_unref, rcUnrefs_cons_unref] at hfin
          rw [hrc]
          omega
        rw [step, ih (cmeshWithRc cmesh (cmesh.rc - 1)) (by rw [hrc]; omega) hpre2 hfin2]
        refine congrArg some (if_congr ?_ ?_ rfl)
        · rw [hrc, rcRefs_cons_unref, rcUnrefs_cons_unref]
          omega
        · show CmeshState.live (cmeshWithRc cmesh _) =
            CmeshState.live (cmeshWithRc cmesh _)
          rw [hrc, rcRefs_cons_unref, rcUnrefs_cons_unref,
            show cmesh.rc - 1 + rcRefs rest - rcUnrefs rest =
              cmesh.rc + rcRefs rest - (rcUnrefs rest + 1) by omega]

/-- Claim C9: t8_cmesh_ref increments the reference count and
t8_cmesh_unref decrements it; running any sequence of refs and unrefs
whose running count stays positive before the end leaves the object
live iff the final count initial + refs - unrefs is positive, and
tears it down exactly when the count reaches zero, in which case the
communicator handle is freed iff both do_dup and committed hold. -/
theorem t8_cmesh_ref_unref_teardown (cmesh : t8_cmesh) (ops : List RcOp)
    (hlive : 0 < cmesh.rc)
    (hpre : ∀ n, n < ops.length →
      rcUnrefs (ops.take n) < cmesh.rc + rcRefs (ops.take n))
    (hfin : rcUnrefs ops ≤ cmesh.rc + rcRefs ops) :
    (t8_cmesh_ref cmesh).rc = cmesh.rc + 1 ∧
    (∀ c : t8_cmesh, t8_cmesh_reset c =
      CmeshState.destroyed (c.do_dup && c.committed)) ∧
    t8_cmesh_run_rc_ops (CmeshState.live cmesh) ops =
      some (if rcUnrefs ops < cmesh.rc + rcRefs ops
        then CmeshState.live (cmeshWithRc cmesh (cmesh.rc + rcRefs ops - rcUnrefs ops))
        else CmeshState.destroyed (cmesh.do_dup && cmesh.committed)) :=
  ⟨rfl, fun _ => rfl, t8_cmesh_run_rc_ops_spec ops cmesh hlive hpre hfin⟩

/-- Concrete committed cmesh with a duplicated communicator, used to
witness the teardown behavior. -/
def cmeshDup : t8_cmesh :=
  { t8_cmesh_init with
    committed := true
    do_dup := true
    mpicomm := SCComm.dupOf SCComm.world
    num_trees := 1
    num_local_trees := 1
    mpisize := 1
    mpirank := 0 }

/-- Witness for t8_cmesh_ref_unref_teardown: one ref balanced by two
unrefs on a committed cmesh with do_dup destroys the object and frees
the duplicated communicator. -/
theorem t8_cmesh_ref_unref_teardown_witness :
    0 < cmeshDup.rc ∧
    t8_cmesh_run_rc_ops (CmeshState.live cmeshDup)
      [RcOp.ref, RcOp.unref, RcOp.unref] = some (CmeshState.destroyed true) := by
  refine ⟨by decide, ?_⟩
  have h := (t8_cmesh_ref_unref_teardown cmeshDup [RcOp.ref, RcOp.unref, RcOp.unref]
    (by decide) (by decide) (by decide)).2.2
  rw [h]
  rw [if_neg (by decide)]
  rfl

/-- Ghost tree record (t8_ghost_tree_t): global tree id, element class
(an opaque value supplied by the forest/cmesh lookup), and the element
array, which phase A initializes empty and never fills. -/
structure GhostTreeRec where
  global_id : ℤ
  ecl : ℤ
  elements : List Unit
deriving DecidableEq

/-- Hash entry of global_tree_to_ghost_tree (t8_ghost_gtree_hash_t):
a global tree id with the index of that tree in ghost_trees.  The
hash table is modelled as the list of its entries; lookup is by
global id, which is also the equality the table uses. -/
structure GtgtEntry where
  global_id : ℤ
  index : ℕ
deriving DecidableEq

/-- The ghost-tree skeleton: the ghost_trees array plus the
global_tree_to_ghost_tree table (the fields of t8_forest_ghost_t that
t8_forest_ghost_fill_ghost_tree_array builds). -/
structure GhostSkel where
  ghost_trees : List GhostTreeRec
  gtgt : List GtgtEntry
deriving DecidableEq

/-- Empty skeleton as produced by t8_forest_ghost_init (lines
168-201). -/
def t8_forest_ghost_skel_init : GhostSkel := { ghost_trees := [], gtgt := [] }

/-- t8_forest_ghost_add_tree (lines 207-268): build a hash entry for
gtreeid and try to insert it uniquely; when the id is already present
the entry is freed and nothing changes; otherwise a new ghost tree is
pushed (with an empty element array) and the entry records its index,
the old array length.  classOfTree abstracts the eclass lookup the
source performs against the cmesh (note: the source selects between
the local and the ghost lookup by reading the uninitialized variable
named lctree_id; only the stored ecl value depends on that, which is
why the lookup is abstracted as a function of the global id). -/
def t8_forest_ghost_add_tree (classOfTree : ℤ → ℤ) (ghost : GhostSkel)
    (gtreeid : ℤ) : GhostSkel :=
  if ghost.gtgt.any (fun en => decide (en.global_id = gtreeid)) then ghost
  else
    { ghost_trees := ghost.ghost_trees ++
        [{ global_id := gtreeid, ecl := classOfTree gtreeid, elements := [] }],
      gtgt := ghost.gtgt ++
        [{ global_id := gtreeid, index := ghost.ghost_trees.length }] }

/-- Order on ghost trees used by the sort: by global id
(t8_ghost_tree_compare, lines 74-84). -/
def ghostTreeLe (a b : GhostTreeRec) : Prop := a.global_id ≤ b.global_id

instance : DecidableRel ghostTreeLe :=
  fun a b => Int.decLe a.global_id b.global_id

instance : IsTotal GhostTreeRec ghostTreeLe :=
  ⟨fun a b => le_total a.global_id b.global_id⟩

instance : IsTrans GhostTreeRec ghostTreeLe :=
  ⟨fun _ _ _ hab hbc => le_trans hab hbc⟩

/-- Overwrite the index stored in the hash entry whose key is g
(the rebuild loop's sc_hash lookup followed by the index update,
lines 336-351; keys are unique so at most one entry matches). -/
def setGtgtIndex (h : List GtgtEntry) (g : ℤ) (i : ℕ) : List GtgtEntry :=
  h.map (fun en => if en.global_id = g then { global_id := g, index := i } else en)

/-- t8_forest_ghost_fill_ghost_tree_array (lines 277-352).  The forest
iteration that decides which global ids reach add_tree (the first and
last local trees when shared, and every coarse face neighbor that is
not forest-local, lines 294-329) is abstracted as the input list
gtreeids.  Afterwards ghost_trees is sorted by global id
(sc_array_sort with t8_ghost_tree_compare) and the rebuild loop
overwrites each present id's hash index with the new position. -/
def t8_forest_ghost_fill_ghost_tree_array (classOfTree : ℤ → ℤ)
    (gtreeids : List ℤ) : GhostSkel :=
  let st := gtreeids.foldl (t8_forest_ghost_add_tree classOfTree)
    t8_forest_ghost_skel_init
  let sorted := List.insertionSort ghostTreeLe st.ghost_trees
  { ghost_trees := sorted,
    gtgt := sorted.enum.foldl
      (fun h p => setGtgtIndex h p.2.global_id p.1) st.gtgt }

/-- Claim C10: t8_forest_ghost_add_tree is idempotent: a global id
already present in the hash table leaves the ghost structure
unchanged, and adding the same id twice equals adding it once. -/
theorem t8_forest_ghost_add_tree_idempotent (classOfTree : ℤ → ℤ)
    (ghost : GhostSkel) (gtreeid : ℤ) :
    (ghost.gtgt.any (fun en => decide (en.global_id = gtreeid)) = true →
      t8_forest_ghost_add_tree classOfTree ghost gtreeid = ghost) ∧
    t8_forest_ghost_add_tree classOfTree
        (t8_forest_ghost_add_tree classOfTree ghost gtreeid) gtreeid =
      t8_forest_ghost_add_tree classOfTree ghost gtreeid := by
  constructor
  · intro h
    simp [t8_forest_ghost_add_tree, h]
  · by_cases h : ghost.gtgt.any (fun en => decide (en.global_id = gtreeid)) = true
    · simp [t8_forest_ghost_add_tree, h]
    · have hstep : t8_forest_ghost_add_tree classOfTree ghost gtreeid =
          { ghost_trees := ghost.ghost_trees ++
              [{ global_id := gtreeid, ecl := classOfTree gtreeid, elements := [] }],
            gtgt := ghost.gtgt ++
              [{ global_id := gtreeid, index := ghost.ghost_trees.length }] } := by
        simp [t8_forest_ghost_add_tree, h]
      rw [hstep]
      simp [t8_forest_ghost_add_tree, List.any_append]

/-- Concrete ghost skeleton already containing global tree 7. -/
def ghostSkelW : GhostSkel :=
  { ghost_trees := [{ global_id := 7, ecl := 0, elements := [] }],
    gtgt := [{ global_id := 7, index := 0 }] }

/-- Witness for t8_forest_ghost_add_tree_idempotent: adding the
already-present tree 7 changes nothing, twice the same as once. -/
theorem t8_forest_ghost_add_tree_idempotent_witness :
    ghostSkelW.gtgt.any (fun en => decide (en.global_id = 7)) = true ∧
    t8_forest_ghost_add_tree (fun _ => 0) ghostSkelW 7 = ghostSkelW ∧
    t8_forest_ghost_add_tree (fun _ => 0)
        (t8_forest_ghost_add_tree (fun _ => 0) ghostSkelW 7) 7 =
      t8_forest_ghost_add_tree (fun _ => 0) ghostSkelW 7 := by
  have h := t8_forest_ghost_add_tree_idempotent (fun _ => 0) ghostSkelW 7
  exact ⟨by decide, h.1 (by decide), h.2⟩

/-- Updating the index stored under a key different from g does not
change the lookup result for g. -/
lemma find_setGtgtIndex_ne (h : List GtgtEntry) (g g2 : ℤ) (i : ℕ)
    (hne : g2 ≠ g) :
    (setGtgtIndex h g2 i).find? (fun en => decide (en.global_id = g)) =
      h.find? (fun en => decide (en.global_id = g)) := by
  induction h with
  | nil => rfl
  | cons a t iht =>
    simp only [setGtgtIndex, List.map_cons] at iht ⊢
    by_cases ha : a.global_id = g2
    · rw [if_pos ha]
      have hhead : decide (({ global_id := g2, index := i } :
          GtgtEntry).global_id = g) = false := by
        simpa using hne
      have hprev : decide (a.global_id = g) = false := by
        simp [ha, hne]
      rw [List.find?_cons_of_neg _ (by simpa using hne),
        List.find?_cons_of_neg _ (by simp [ha, hne])]
      exact iht
    · rw [if_neg ha]
      by_cases hp : a.global_id = g
      · rw [List.find?_cons_of_pos _ (by simpa using hp),
          List.find?_cons_of_pos _ (by simpa using hp)]
      · rw [List.find?_cons_of_neg _ (by simpa using hp),
          List.find?_cons_of_neg _ (by simpa using hp)]
        exact iht

/-- Updating the index stored under a present key g makes the lookup
for g return exactly the updated entry. -/
lemma find_setGtgtIndex_eq (h : List GtgtEntry) (g : ℤ) (i : ℕ)
    (hany : h.any (fun en => decide (en.global_id = g)) = true) :
    (setGtgtIndex h g i).find? (fun en => decide (en.global_id = g)) =
      some { global_id := g, index := i } := by
  induction h with
  | nil => simp at hany
  | cons a t iht =>
    simp only [setGtgtIndex, List.map_cons]
    by_cases ha : a.global_id = g
    · rw [if_pos ha]
      rw [List.find?_cons_of_pos _ (by simp)]
    · rw [if_neg ha]
      rw [List.find?_cons_of_neg _ (by simpa using ha)]
      apply iht
      simp only [List.any_cons] at hany
      simpa [ha] using hany

/-- setGtgtIndex keeps the key of every entry. -/
lemma keys_setGtgtIndex (h : List GtgtEntry) (g : ℤ) (i : ℕ) :
    (setGtgtIndex h g i).map (fun en => en.global_id) =
      h.map (fun en => en.global_id) := by
  induction h with
  | nil => rfl
  | cons a t iht =>
    simp only [setGtgtIndex, List.map_cons] at iht ⊢
    by_cases ha : a.global_id = g
    · rw [if_pos ha, iht, ha]
    · rw [if_neg ha, iht]

/-- setGtgtIndex keeps the set of present keys, hence any key-presence
test. -/
lemma any_setGtgtIndex (h : List GtgtEntry) (g2 : ℤ) (i : ℕ) (g : ℤ) :
    (setGtgtIndex h g2 i).any (fun en => decide (en.global_id = g)) =
      h.any (fun en => decide (en.global_id = g)) := by
  induction h with
  | nil => rfl
  | cons a t iht =>
    simp only [setGtgtIndex, List.map_cons, List.any_cons] at iht ⊢
    by_cases ha : a.global_id = g2
    · rw [if_pos ha, iht, ha]
    · rw [if_neg ha, iht]

/-- A fold of index updates whose keys all differ from g leaves the
lookup for g unchanged. -/
lemma rebuild_find_untouched (pairs : List (ℕ × GhostTreeRec)) (g : ℤ) :
    ∀ h : List GtgtEntry, (∀ q ∈ pairs, q.2.global_id ≠ g) →
    (pairs.foldl (fun h p => setGtgtIndex h p.2.global_id p.1) h).find?
        (fun en => decide (en.global_id = g)) =
      h.find? (fun en => decide (en.global_id = g)) := by
  induction pairs with
  | nil => intro h _; rfl
  | cons q qs iht =>
    intro h hall
    rw [List.foldl_cons]
    rw [iht _ (fun p hp => hall p (List.mem_cons_of_mem q hp))]
    exact find_setGtgtIndex_ne h g q.2.global_id q.1
      (hall q (List.mem_cons_self q qs))

/-- The rebuild fold: when the update pairs carry pairwise-distinct
keys and the key of the pair (i, t) is present in the table, the final
lookup for that key yields exactly index i. -/
lemma rebuild_find (pairs : List (ℕ × GhostTreeRec)) :
    ∀ (h : List GtgtEntry) (i : ℕ) (t : GhostTreeRec),
    (i, t) ∈ pairs →
    (pairs.map (fun p => p.2.global_id)).Nodup →
    h.any (fun en => decide (en.global_id = t.global_id)) = true →
    (pairs.foldl (fun h p => setGtgtIndex h p.2.global_id p.1) h).find?
        (fun en => decide (en.global_id = t.global_id)) =
      some { global_id := t.global_id, index := i } := by
  induction pairs with
  | nil => intro h i t hmem _ _; simp at hmem
  | cons q qs iht =>
    intro h i t hmem hnd hany
    simp only [List.map_cons, List.nodup_cons] at hnd
    rw [List.foldl_cons]
    rcases List.mem_cons.mp hmem with heq | htail
    · have hq2 : q.2 = t := congrArg Prod.snd heq.symm
      have hq1 : q.1 = i := congrArg Prod.fst heq.symm
      have hall : ∀ p ∈ qs, p.2.global_id ≠ t.global_id := by
        intro p hp hcon
        exact hnd.1 (by
          rw [hq2, ← hcon]
          exact List.mem_map.mpr ⟨p, hp, rfl⟩)
      rw [rebuild_find_untouched qs t.global_id _ hall]
      rw [hq2, hq1]
      exact find_setGtgtIndex_eq h t.global_id i hany
    · exact iht _ i t htail hnd.2 (by rw [any_setGtgtIndex]; exact hany)

/-- One add_tree call preserves the phase-A table invariant: the hash
entries are exactly the enumerated ghost trees (id, position), and
tree ids are pairwise distinct. -/
lemma ghost_add_tree_inv (classOfTree : ℤ → ℤ) (st : GhostSkel) (g : ℤ)
    (h1 : st.gtgt = st.ghost_trees.enum.map
      (fun p => { global_id := p.2.global_id, index := p.1 }))
    (h2 : (st.ghost_trees.map GhostTreeRec.global_id).Nodup) :
    (t8_forest_ghost_add_tree classOfTree st g).gtgt =
      (t8_forest_ghost_add_tree classOfTree st g).ghost_trees.enum.map
        (fun p => { global_id := p.2.global_id, index := p.1 }) ∧
    ((t8_forest_ghost_add_tree classOfTree st g).ghost_trees.map
      GhostTreeRec.global_id).Nodup := by
  by_cases hany : st.gtgt.any (fun en => decide (en.global_id = g)) = true
  · have hstep : t8_forest_ghost_add_tree classOfTree st g = st := by
      simp [t8_forest_ghost_add_tree, hany]
    rw [hstep]
    exact ⟨h1, h2⟩
  · have hne : g ∉ st.ghost_trees.map GhostTreeRec.global_id := by
      intro hmem
      apply hany
      obtain ⟨t, ht, hgid⟩ := List.mem_map.mp hmem
      obtain ⟨j, hj⟩ := List.mem_iff_getElem?.mp ht
      have hjenum : (j, t) ∈ st.ghost_trees.enum :=
        List.mem_enum_iff_getElem?.mpr hj
      have hent : ({ global_id := t.global_id, index := j } : GtgtEntry) ∈
          st.gtgt := by
        rw [h1]
        exact List.mem_map.mpr ⟨(j, t), hjenum, rfl⟩
      exact List.any_eq_true.mpr ⟨_, hent, by simpa using hgid⟩
    have hstep : t8_forest_ghost_add_tree classOfTree st g =
        { ghost_trees := st.ghost_trees ++
            [{ global_id := g, ecl := classOfTree g, elements := [] }],
          gtgt := st.gtgt ++
            [{ global_id := g, index := st.ghost_trees.length }] } := by
      simp [t8_forest_ghost_add_tree, hany]
    rw [hstep]
    constructor
    · show st.gtgt ++ _ = _
      rw [List.enum_append, List.map_append, ← h1]
      rfl
    · show (List.map GhostTreeRec.global_id (st.ghost_trees ++ _)).Nodup
      rw [List.map_append]
      rw [List.nodup_append]
      refine ⟨h2, List.nodup_singleton g, ?_⟩
      intro x hx hxg
      apply hne
      have : x = g := by simpa using hxg
      rwa [← this]

/-- Folding add_tree over any id list preserves the phase-A table
invariant. -/
lemma ghost_add_tree_fold_inv (classOfTree : ℤ → ℤ) (gts : List ℤ) :
    ∀ st : GhostSkel,
    st.gtgt = st.ghost_trees.enum.map
      (fun p => { global_id := p.2.global_id, index := p.1 }) →
    (st.ghost_trees.map GhostTreeRec.global_id).Nodup →
    (gts.foldl (t8_forest_ghost_add_tree classOfTree) st).gtgt =
      (gts.foldl (t8_forest_ghost_add_tree classOfTree) st).ghost_trees.enum.map
        (fun p => { global_id := p.2.global_id, index := p.1 }) ∧
    ((gts.foldl (t8_forest_ghost_add_tree classOfTree) st).ghost_trees.map
      GhostTreeRec.global_id).Nodup := by
  induction gts with
  | nil => intro st h1 h2; exact ⟨h1, h2⟩
  | cons g rest iht =>
    intro st h1 h2
    rw [List.foldl_cons]
    obtain ⟨h1s, h2s⟩ := ghost_add_tree_inv classOfTree st g h1 h2
    exact iht _ h1s h2s

/-- Claim C5: after t8_forest_ghost_fill_ghost_tree_array the
ghost_trees array is strictly ascending in global id (sorted, no
duplicates), and for every position i the hash lookup of the tree's
global id yields an entry whose index is exactly i. -/
theorem t8_forest_ghost_fill_ghost_tree_array_sorted (classOfTree : ℤ → ℤ)
    (gtreeids : List ℤ) :
    List.Chain' (fun a b => a.global_id < b.global_id)
      (t8_forest_ghost_fill_ghost_tree_array classOfTree gtreeids).ghost_trees ∧
    (∀ (i : ℕ) (t : GhostTreeRec),
      (t8_forest_ghost_fill_ghost_tree_array classOfTree
        gtreeids).ghost_trees[i]? = some t →
      (t8_forest_ghost_fill_ghost_tree_array classOfTree gtreeids).gtgt.find?
          (fun en => decide (en.global_id = t.global_id)) =
        some { global_id := t.global_id, index := i }) := by
  obtain ⟨hinv, hnd⟩ := ghost_add_tree_fold_inv classOfTree gtreeids
    t8_forest_ghost_skel_init rfl (by simp [t8_forest_ghost_skel_init])
  set st := gtreeids.foldl (t8_forest_ghost_add_tree classOfTree)
    t8_forest_ghost_skel_init with hst
  have hunfold : t8_forest_ghost_fill_ghost_tree_array classOfTree gtreeids =
      { ghost_trees := List.insertionSort ghostTreeLe st.ghost_trees,
        gtgt := (List.insertionSort ghostTreeLe st.ghost_trees).enum.foldl
          (fun h p => setGtgtIndex h p.2.global_id p.1) st.gtgt } := rfl
  rw [hunfold]
  set sorted := List.insertionSort ghostTreeLe st.ghost_trees with hsorted
  have hperm : sorted.Perm st.ghost_trees := List.perm_insertionSort _ _
  have hsort : List.Sorted ghostTreeLe sorted := List.sorted_insertionSort _ _
  have hndsorted : (sorted.map GhostTreeRec.global_id).Nodup :=
    ((hperm.map GhostTreeRec.global_id).nodup_iff).mpr hnd
  constructor
  · have hp2 : List.Pairwise
        (fun a b : GhostTreeRec => a.global_id ≠ b.global_id) sorted :=
      List.pairwise_map.mp hndsorted
    exact ((List.Pairwise.and hsort hp2).imp
      (fun h => lt_of_le_of_ne h.1 h.2)).chain'
  · intro i t ht
    have hmem : (i, t) ∈ sorted.enum := List.mem_enum_iff_getElem?.mpr ht
    have htmem : t ∈ st.ghost_trees :=
      hperm.subset (List.mem_iff_getElem?.mpr ⟨i, ht⟩)
    have hkeys : st.gtgt.any
        (fun en => decide (en.global_id = t.global_id)) = true := by
      obtain ⟨j, hj⟩ := List.mem_iff_getElem?.mp htmem
      have hjenum : (j, t) ∈ st.ghost_trees.enum :=
        List.mem_enum_iff_getElem?.mpr hj
      have hent : ({ global_id := t.global_id, index := j } : GtgtEntry) ∈
          st.gtgt := by
        rw [hinv]
        exact List.mem_map.mpr ⟨(j, t), hjenum, rfl⟩
      exact List.any_eq_true.mpr ⟨_, hent, by simp⟩
    have hndpairs : (sorted.enum.map (fun p => p.2.global_id)).Nodup := by
      have hcomp : sorted.enum.map (fun p => p.2.global_id) =
          sorted.map GhostTreeRec.global_id := by
        conv_rhs => rw [← List.enum_map_snd sorted]
        rw [List.map_map]
        rfl
      rw [hcomp]
      exact hndsorted
    exact rebuild_find sorted.enum st.gtgt i t hmem hndpairs hkeys

/-- Witness for t8_forest_ghost_fill_ghost_tree_array_sorted: ids
[9, 3, 9, 7] produce the sorted tree list [3, 7, 9]; the lookup of the
tree at position 0 (global id 3) yields index 0. -/
theorem t8_forest_ghost_fill_ghost_tree_array_sorted_witness :
    (t8_forest_ghost_fill_ghost_tree_array (fun _ => 0)
        [9, 3, 9, 7]).ghost_trees[0]? =
      some { global_id := 3, ecl := 0, elements := [] } ∧
    (t8_forest_ghost_fill_ghost_tree_array (fun _ => 0) [9, 3, 9, 7]).gtgt.find?
        (fun en => decide (en.global_id = (3 : ℤ))) =
      some { global_id := 3, index := 0 } := by
  refine ⟨by decide, ?_⟩
  have h := (t8_forest_ghost_fill_ghost_tree_array_sorted (fun _ => 0)
    [9, 3, 9, 7]).2 0 { global_id := 3, ecl := 0, elements := [] } (by decide)
  exact h

/-- A fine element as t8_ghost_add_remote observes it through the
scheme capability: its refinement level (t8_element_level) and its
linear id at a given level (t8_element_get_linear_id). -/
structure GElem where
  level : ℕ
  linIdAt : ℕ → ℕ

/-- Linear id of an element at its own level, the value the dedup
comparison uses. -/
def gelemLin (e : GElem) : ℕ := e.linIdAt e.level

/-- The (level, linear id at own level) pair compared by the dedup
check of t8_ghost_add_remote (lines 454-457). -/
def gelemKey (e : GElem) : ℕ × ℕ := (e.level, gelemLin e)

/-- Remote tree record (t8_ghost_remote_tree_t): global id, element
class (opaque value) and the element array. -/
structure RemoteTree where
  global_id : ℤ
  ecl : ℤ
  elements : List GElem

/-- Per-remote-rank bundle (t8_ghost_remote_t). -/
structure RemoteEntry where
  remote_rank : ℤ
  remote_trees : List RemoteTree

/-- The remote side of the ghost structure: the remote_ghosts hash
array (entries in insertion order, one per rank) and the
remote_processes array. -/
structure GhostRemoteStore where
  remote_ghosts : List RemoteEntry
  remote_processes : List ℤ

/-- Append elem to the element array unless the last stored element
has the same (level, linear id) pair (lines 443-463). -/
def dedupAppend (es : List GElem) (e : GElem) : List GElem :=
  match es.getLast? with
  | none => es ++ [e]
  | some l => if gelemKey l = gelemKey e then es else es ++ [e]

/-- Replace the last tree's element array by its dedup-append; the
source writes through a pointer into the last array slot (elem_count -
1).  On an empty list (never reached: every entry owns at least one
tree) this is the identity. -/
def appendToLastTree (ts : List RemoteTree) (e : GElem) : List RemoteTree :=
  match ts.getLast? with
  | none => ts
  | some t => ts.dropLast ++ [{ t with elements := dedupAppend t.elements e }]

/-- If the last tree of the bundle is not the current tree, push a new
empty remote tree for it (lines 425-437; t8_ghost_init_remote_tree
sets the global id and the eclass, looked up from the forest and
abstracted as eclassOf). -/
def pushOrReuseLastTree (eclassOf : ℤ → ℤ) (ts : List RemoteTree)
    (gtreeid : ℤ) : List RemoteTree :=
  match ts.getLast? with
  | none => ts ++ [{ global_id := gtreeid, ecl := eclassOf gtreeid, elements := [] }]
  | some t =>
    if t.global_id ≠ gtreeid then
      ts ++ [{ global_id := gtreeid, ecl := eclassOf gtreeid, elements := [] }]
    else ts

/-- The tree-level update performed on the rank's bundle by one
add_remote call: select (or push) the last tree for gtreeid, then
dedup-append the element to it. -/
def updateTrees (eclassOf : ℤ → ℤ) (ts : List RemoteTree) (gtreeid : ℤ)
    (e : GElem) : List RemoteTree :=
  appendToLastTree (pushOrReuseLastTree eclassOf ts gtreeid) e

/-- Entry-list update of t8_ghost_add_remote (lines 397-438):
sc_hash_array_insert_unique finds the entry with this rank or appends
a fresh one whose tree array holds exactly one new tree for the
current gtreeid; the element is then dedup-appended to the entry's
last tree. -/
def addRemoteToEntries (eclassOf : ℤ → ℤ) (remote_rank gtreeid : ℤ)
    (e : GElem) : List RemoteEntry → List RemoteEntry
  | [] =>
    let t0 : RemoteTree :=
      { global_id := gtreeid, ecl := eclassOf gtreeid, elements := [] }
    [{ remote_rank := remote_rank, remote_trees := appendToLastTree [t0] e }]
  | ent :: rest =>
    if ent.remote_rank = remote_rank then
      { ent with remote_trees :=
          updateTrees eclassOf ent.remote_trees gtreeid e } :: rest
    else ent :: addRemoteToEntries eclassOf remote_rank gtreeid e rest

/-- t8_ghost_add_remote (lines 374-464).  The element's tree is
addressed by its forest-local id; gtreeid = first_local_tree +
ltreeid (line 395).  A rank seen for the first time is also appended
to remote_processes (lines 414-417). -/
def t8_ghost_add_remote (eclassOf : ℤ → ℤ) (first_local_tree : ℤ)
    (ghost : GhostRemoteStore) (remote_rank ltreeid : ℤ) (e : GElem) :
    GhostRemoteStore :=
  { remote_ghosts := addRemoteToEntries eclassOf remote_rank
      (first_local_tree + ltreeid) e ghost.remote_ghosts,
    remote_processes :=
      if ghost.remote_ghosts.any (fun ent => decide (ent.remote_rank = remote_rank))
      then ghost.remote_processes
      else ghost.remote_processes ++ [remote_rank] }

/-- One call of the ghost builder into add_remote: the owner rank, the
forest-local tree id, and the element (t8_forest_ghost_create, line
551). -/
structure RemoteCall where
  rank : ℤ
  ltree : ℤ
  elem : GElem

/-- Run a sequence of add_remote calls against the freshly initialized
(empty) remote store. -/
def runAddRemote (eclassOf : ℤ → ℤ) (first_local_tree : ℤ)
    (calls : List RemoteCall) : GhostRemoteStore :=
  calls.foldl
    (fun st c => t8_ghost_add_remote eclassOf first_local_tree st c.rank c.ltree c.elem)
    { remote_ghosts := [], remote_processes := [] }

/-- The iteration order of the ghost builder: trees in ascending local
id, and within one tree elements in non-decreasing linear id. -/
def remoteCallOrd (c1 c2 : RemoteCall) : Prop :=
  c1.ltree ≤ c2.ltree ∧
  (c1.ltree = c2.ltree → gelemLin c1.elem ≤ gelemLin c2.elem)

/-- Element array invariant of claim C4: linear ids non-decreasing and
no two consecutive elements with equal (level, linear id) pair. -/
def elemChainOk (es : List GElem) : Prop :=
  List.Chain' (fun a b => gelemLin a ≤ gelemLin b ∧ gelemKey a ≠ gelemKey b) es

/-- Tree list invariant of claim C4: tree ids strictly ascending, all
element arrays well-formed. -/
def treesOk (ts : List RemoteTree) : Prop :=
  List.Chain' (fun a b => a.global_id < b.global_id) ts ∧
  ∀ t ∈ ts, elemChainOk t.elements

/-- What the bundle's tree list must satisfy for the next incoming
call (tree gtreeid, element linear id lin): the last tree does not lie
beyond gtreeid, and when it is the tree for gtreeid its last element
does not lie beyond lin. -/
def frontierOk (gtreeid : ℤ) (lin : ℕ) (ts : List RemoteTree) : Prop :=
  ∀ t, ts.getLast? = some t →
    t.global_id ≤ gtreeid ∧
    (t.global_id = gtreeid →
      ∀ el, t.elements.getLast? = some el → gelemLin el ≤ lin)

/-- The dedup-append always leaves a last element with the incoming
element's linear id (either the appended copy or the equal-key
element that suppressed the append). -/
lemma dedupAppend_getLast (es : List GElem) (e : GElem) :
    ∃ l2, (dedupAppend es e).getLast? = some l2 ∧ gelemLin l2 = gelemLin e := by
  cases h : es.getLast? with
  | none =>
    refine ⟨e, ?_, rfl⟩
    simp [dedupAppend, h]
  | some l =>
    by_cases hk : gelemKey l = gelemKey e
    · refine ⟨l, ?_, ?_⟩
      · simp [dedupAppend, h, hk]
      · have := congrArg Prod.snd hk
        simpa [gelemKey] using this
    · refine ⟨e, ?_, rfl⟩
      simp [dedupAppend, h, hk]

/-- The dedup-append preserves the element chain invariant when the
incoming linear id is at least the last stored one. -/
lemma dedupAppend_chain (es : List GElem) (e : GElem) (hok : elemChainOk es)
    (hle : ∀ l, es.getLast? = some l → gelemLin l ≤ gelemLin e) :
    elemChainOk (dedupAppend es e) := by
  cases h : es.getLast? with
  | none =>
    have hnil : es = [] := by
      cases es with
      | nil => rfl
      | cons a as => simp [List.getLast?_concat] at h
    subst hnil
    have : dedupAppend [] e = [e] := by simp [dedupAppend]
    rw [this]
    exact List.chain'_singleton e
  | some l =>
    by_cases hk : gelemKey l = gelemKey e
    · have heq : dedupAppend es e = es := by simp [dedupAppend, h, hk]
      rw [heq]
      exact hok
    · have heq : dedupAppend es e = es ++ [e] := by simp [dedupAppend, h, hk]
      rw [heq]
      rw [elemChainOk, List.chain'_append]
      refine ⟨hok, List.chain'_singleton e, ?_⟩
      intro x hx y hy
      have hx2 : x = l := by
        rw [Option.mem_def, h] at hx
        exact (Option.some.inj hx).symm
      have hy2 : y = e := by
        rw [List.head?_cons, Option.mem_def] at hy
        exact (Option.some.inj hy).symm
      subst hx2
      subst hy2
      exact ⟨hle x h, hk⟩

/-- appendToLastTree on a nonempty list rewrites only the last
tree. -/
lemma appendToLastTree_concat (init : List RemoteTree) (t : RemoteTree)
    (e : GElem) :
    appendToLastTree (init ++ [t]) e =
      init ++ [{ t with elements := dedupAppend t.elements e }] := by
  simp [appendToLastTree, List.getLast?_concat, List.dropLast_concat]

/-- pushOrReuseLastTree keeps the list when the last tree already is
the current tree. -/
lemma pushOrReuse_concat_eq (eclassOf : ℤ → ℤ) (init : List RemoteTree)
    (t : RemoteTree) (gtreeid : ℤ) (hgid : t.global_id = gtreeid) :
    pushOrReuseLastTree eclassOf (init ++ [t]) gtreeid = init ++ [t] := by
  simp [pushOrReuseLastTree, List.getLast?_concat, hgid]

/-- pushOrReuseLastTree pushes a fresh empty tree when the last tree
differs from the current one. -/
lemma pushOrReuse_concat_ne (eclassOf : ℤ → ℤ) (init : List RemoteTree)
    (t : RemoteTree) (gtreeid : ℤ) (hgid : t.global_id ≠ gtreeid) :
    pushOrReuseLastTree eclassOf (init ++ [t]) gtreeid =
      (init ++ [t]) ++
        [{ global_id := gtreeid, ecl := eclassOf gtreeid, elements := [] }] := by
  simp [pushOrReuseLastTree, List.getLast?_concat, hgid]

/-- The tree-level update preserves the C4 invariant and establishes
the next frontier: afterwards the last tree is the one for gtreeid and
its last element carries the incoming element's linear id. -/
lemma updateTrees_ok (eclassOf : ℤ → ℤ) (ts : List RemoteTree) (gtreeid : ℤ)
    (e : GElem) (hok : treesOk ts) (hfr : frontierOk gtreeid (gelemLin e) ts) :
    treesOk (updateTrees eclassOf ts gtreeid e) ∧
    ∃ t2, (updateTrees eclassOf ts gtreeid e).getLast? = some t2 ∧
      t2.global_id = gtreeid ∧
      ∃ el, t2.elements.getLast? = some el ∧ gelemLin el = gelemLin e := by
  rcases List.eq_nil_or_concat ts with hnil | ⟨init, t, hts⟩
  · subst hnil
    have hred : updateTrees eclassOf [] gtreeid e =
        [{ global_id := gtreeid, ecl := eclassOf gtreeid, elements := [e] }] := by
      simp [updateTrees, pushOrReuseLastTree, appendToLastTree, dedupAppend]
    rw [hred]
    refine ⟨⟨List.chain'_singleton _, ?_⟩, ?_⟩
    · intro t3 ht3
      have h3n : t3 = { global_id := gtreeid, ecl := eclassOf gtreeid, elements := [e] } := by
        simpa using ht3
      rw [h3n]
      exact List.chain'_singleton e
    · refine ⟨_, rfl, rfl, e, rfl, rfl⟩
  · rw [List.concat_eq_append] at hts
    subst hts
    have hlast : (init ++ [t]).getLast? = some t := List.getLast?_concat _
    obtain ⟨hle, himp⟩ := hfr t hlast
    obtain ⟨hch, helems⟩ := hok
    by_cases hgid : t.global_id = gtreeid
    · have happ : updateTrees eclassOf (init ++ [t]) gtreeid e =
          init ++ [{ t with elements := dedupAppend t.elements e }] := by
        rw [updateTrees, pushOrReuse_concat_eq eclassOf init t gtreeid hgid,
          appendToLastTree_concat]
      rw [happ]
      rw [List.chain'_append] at hch
      refine ⟨⟨?_, ?_⟩, ?_⟩
      · rw [List.chain'_append]
        refine ⟨hch.1, List.chain'_singleton _, ?_⟩
        intro x hx y hy
        have hy2 : y = { t with elements := dedupAppend t.elements e } := by
          symm
          simpa using hy
        have hrel := hch.2.2 x hx t (by simp)
        rw [hy2]
        exact hrel
      · intro t3 ht3
        rcases List.mem_append.mp ht3 with h3i | h3s
        · exact helems t3 (List.mem_append_left _ h3i)
        · have h3 : t3 = { t with elements := dedupAppend t.elements e } := by
            simpa using h3s
          rw [h3]
          exact dedupAppend_chain t.elements e (helems t (by simp)) (himp hgid)
      · refine ⟨_, List.getLast?_concat _, hgid, ?_⟩
        exact dedupAppend_getLast t.elements e
    · have hlt : t.global_id < gtreeid := lt_of_le_of_ne hle hgid
      have happ : updateTrees eclassOf (init ++ [t]) gtreeid e =
          (init ++ [t]) ++
            [{ global_id := gtreeid, ecl := eclassOf gtreeid, elements := [e] }] := by
        rw [updateTrees, pushOrReuse_concat_ne eclassOf init t gtreeid hgid,
          appendToLastTree_concat]
        rfl
      rw [happ]
      refine ⟨⟨?_, ?_⟩, ?_⟩
      · rw [List.chain'_append]
        refine ⟨hch, List.chain'_singleton _, ?_⟩
        intro x hx y hy
        have hx2 : x = t := by
          rw [Option.mem_def, List.getLast?_concat] at hx
          exact (Option.some.inj hx).symm
        have hy2 : y = { global_id := gtreeid, ecl := eclassOf gtreeid, elements := [e] } := by
          symm
          simpa using hy
        rw [hx2, hy2]
        exact hlt
      · intro t3 ht3
        rcases List.mem_append.mp ht3 with h3i | h3s
        · exact helems t3 h3i
        · have h3 : t3 = { global_id := gtreeid, ecl := eclassOf gtreeid, elements := [e] } := by
            simpa using h3s
          rw [h3]
          exact List.chain'_singleton e
      · refine ⟨_, List.getLast?_concat _, rfl, e, rfl, rfl⟩

/-- Every entry of the updated entry list is an untouched old entry,
the updated old entry of the matching rank, or the freshly created
entry of that rank. -/
lemma mem_addRemoteToEntries (eclassOf : ℤ → ℤ) (r gt : ℤ) (e : GElem) :
    ∀ (l : List RemoteEntry) (ent2 : RemoteEntry),
    ent2 ∈ addRemoteToEntries eclassOf r gt e l →
    ent2 ∈ l ∨
    (∃ ent ∈ l, ent.remote_rank = r ∧
      ent2 = { ent with remote_trees := updateTrees eclassOf ent.remote_trees gt e }) ∨
    ent2 = { remote_rank := r, remote_trees := updateTrees eclassOf [] gt e } := by
  intro l
  induction l with
  | nil =>
    intro ent2 h2
    right; right
    simpa [addRemoteToEntries, updateTrees, pushOrReuseLastTree] using h2
  | cons ent rest iht =>
    intro ent2 h2
    by_cases hr : ent.remote_rank = r
    · simp only [addRemoteToEntries, if_pos hr] at h2
      rcases List.mem_cons.mp h2 with hhead | htail
      · exact Or.inr (Or.inl ⟨ent, List.mem_cons_self ent rest, hr, hhead⟩)
      · exact Or.inl (List.mem_cons_of_mem ent htail)
    · simp only [addRemoteToEntries, if_neg hr] at h2
      rcases List.mem_cons.mp h2 with hhead | htail
      · rw [hhead]
        exact Or.inl (List.mem_cons_self ent rest)
      · rcases iht ent2 htail with h | ⟨a, ha, har, hae⟩ | h
        · exact Or.inl (List.mem_cons_of_mem ent h)
        · exact Or.inr (Or.inl ⟨a, List.mem_cons_of_mem ent ha, har, hae⟩)
        · exact Or.inr (Or.inr h)

/-- After an update for call c, the tree list satisfies the frontier
required by any later call c2 of the same rank, given the iteration
order between c and c2. -/
lemma frontier_after_update (flt : ℤ) (c c2 : RemoteCall)
    (hord : remoteCallOrd c c2) (ts2 : List RemoteTree) (t2 : RemoteTree)
    (hlast2 : ts2.getLast? = some t2) (hgid2 : t2.global_id = flt + c.ltree)
    (hel : ∃ el, t2.elements.getLast? = some el ∧
      gelemLin el = gelemLin c.elem) :
    frontierOk (flt + c2.ltree) (gelemLin c2.elem) ts2 := by
  intro t3 ht3
  rw [hlast2] at ht3
  have ht23 : t3 = t2 := (Option.some.inj ht3).symm
  subst ht23
  constructor
  · rw [hgid2]
    exact add_le_add_left hord.1 flt
  · intro hgid3 el3 hel3
    obtain ⟨el2, hel2, hlin2⟩ := hel
    rw [hel2] at hel3
    have hel23 : el3 = el2 := (Option.some.inj hel3).symm
    rw [hel23, hlin2]
    apply hord.2
    have heq : flt + c.ltree = flt + c2.ltree := hgid2.symm.trans hgid3
    omega

/-- Running an ordered call sequence from any store whose entries are
well-formed and compatible with the pending calls keeps every bundle
well-formed: tree ids strictly ascending and element arrays in
non-decreasing linear order without consecutive equal keys. -/
lemma addRemote_run_inv (eclassOf : ℤ → ℤ) (flt : ℤ) (calls : List RemoteCall) :
    ∀ st : GhostRemoteStore,
    List.Pairwise remoteCallOrd calls →
    (∀ ent ∈ st.remote_ghosts, treesOk ent.remote_trees ∧
      ∀ c ∈ calls, c.rank = ent.remote_rank →
        frontierOk (flt + c.ltree) (gelemLin c.elem) ent.remote_trees) →
    ∀ ent ∈ (calls.foldl (fun s c =>
        t8_ghost_add_remote eclassOf flt s c.rank c.ltree c.elem) st).remote_ghosts,
      treesOk ent.remote_trees := by
  induction calls with
  | nil =>
    intro st _ hinv ent hent
    exact (hinv ent hent).1
  | cons c rest iht =>
    intro st hpw hinv
    obtain ⟨hpwhead, hpwtail⟩ := List.pairwise_cons.mp hpw
    rw [List.foldl_cons]
    apply iht _ hpwtail
    intro ent2 hent2
    have hent2b : ent2 ∈ addRemoteToEntries eclassOf c.rank (flt + c.ltree)
        c.elem st.remote_ghosts := hent2
    rcases mem_addRemoteToEntries eclassOf c.rank (flt + c.ltree) c.elem
        st.remote_ghosts ent2 hent2b with
      hold | ⟨ent, hmem, hrank, hupd⟩ | hnew
    · obtain ⟨hok, hfr⟩ := hinv ent2 hold
      exact ⟨hok, fun c2 hc2 => hfr c2 (List.mem_cons_of_mem c hc2)⟩
    · obtain ⟨hok, hfr⟩ := hinv ent hmem
      have hfrc : frontierOk (flt + c.ltree) (gelemLin c.elem) ent.remote_trees :=
        hfr c (List.mem_cons_self c rest) hrank.symm
      obtain ⟨hok2, t2, hlast2, hgid2, hel2⟩ :=
        updateTrees_ok eclassOf ent.remote_trees (flt + c.ltree) c.elem hok hfrc
      constructor
      · rw [hupd]
        exact hok2
      · intro c2 hc2 hr2
        rw [hupd]
        exact frontier_after_update flt c c2 (hpwhead c2 hc2) _ t2 hlast2 hgid2 hel2
    · have hok0 : treesOk ([] : List RemoteTree) :=
        ⟨List.chain'_nil, by intro t ht; cases ht⟩
      have hfr0 : frontierOk (flt + c.ltree) (gelemLin c.elem) [] := by
        intro t ht
        simp at ht
      obtain ⟨hok2, t2, hlast2, hgid2, hel2⟩ :=
        updateTrees_ok eclassOf [] (flt + c.ltree) c.elem hok0 hfr0
      constructor
      · rw [hnew]
        exact hok2
      · intro c2 hc2 hr2
        rw [hnew]
        exact frontier_after_update flt c c2 (hpwhead c2 hc2) _ t2 hlast2 hgid2 hel2

/-- Claim C4: when t8_ghost_add_remote is driven in the ghost
builder's iteration order (trees ascending, per-tree elements in
non-decreasing linear id), every remote bundle ends with strictly
ascending tree ids, and within each tree the stored elements are in
non-decreasing linear-id order with no two consecutive elements equal
in both level and linear id; moreover one call appends a copy of the
element iff its (level, linear id) pair differs from the last element
already stored in the tree. -/
theorem t8_ghost_add_remote_ordering (eclassOf : ℤ → ℤ) (first_local_tree : ℤ)
    (calls : List RemoteCall) (hord : List.Pairwise remoteCallOrd calls) :
    (∀ ent ∈ (runAddRemote eclassOf first_local_tree calls).remote_ghosts,
      List.Chain' (fun a b => a.global_id < b.global_id) ent.remote_trees ∧
      ∀ t ∈ ent.remote_trees, elemChainOk t.elements) ∧
    (∀ (es : List GElem) (l e : GElem), es.getLast? = some l →
      dedupAppend es e = if gelemKey l = gelemKey e then es else es ++ [e]) := by
  constructor
  · intro ent hent
    exact addRemote_run_inv eclassOf first_local_tree calls
      { remote_ghosts := [], remote_processes := [] } hord
      (by intro ent2 hent2; cases hent2) ent hent
  · intro es l e hl
    simp [dedupAppend, hl]

/-- Concrete element for the add_remote witness. -/
def gelemW : GElem := { level := 0, linIdAt := fun _ => 0 }

/-- The same element reported twice for the same tree and rank, as
happens when two faces of one element have the same remote owner. -/
def remoteCallsW : List RemoteCall := [⟨1, 0, gelemW⟩, ⟨1, 0, gelemW⟩]

/-- Witness for t8_ghost_add_remote_ordering: the duplicate call is
deduplicated (rank 1's single tree stores one element) and the bundle
invariants hold. -/
theorem t8_ghost_add_remote_ordering_witness :
    List.Pairwise remoteCallOrd remoteCallsW ∧
    (runAddRemote (fun _ => 0) 0 remoteCallsW).remote_ghosts.map
        (fun ent => ent.remote_trees.map (fun t => t.elements.length)) = [[1]] ∧
    (∀ ent ∈ (runAddRemote (fun _ => 0) 0 remoteCallsW).remote_ghosts,
      List.Chain' (fun a b => a.global_id < b.global_id) ent.remote_trees ∧
      ∀ t ∈ ent.remote_trees, elemChainOk t.elements) := by
  have hpw : List.Pairwise remoteCallOrd remoteCallsW := by
    refine List.pairwise_cons.mpr ⟨?_, List.pairwise_singleton _ _⟩
    intro c hc
    have hc2 : c = ⟨1, 0, gelemW⟩ := by simpa [remoteCallsW] using hc
    rw [hc2]
    exact ⟨le_refl _, fun _ => le_refl _⟩
  exact ⟨hpw, rfl,
    (t8_ghost_add_remote_ordering (fun _ => 0) 0 remoteCallsW hpw).1⟩
